import Mathlib

/-!
Verification of the hex8 lexer (`src/lexer.rs`).

Shallow embedding of the tokenizer core: token data model, pattern table,
longest-match scanner and driver loop, translated from `src/lexer.rs`.

Modelling conventions:
* Source text is a `List Char`; positions are indices into that list
  (the Rust code uses byte offsets into a UTF-8 `&str`; for the ASCII
  alphabet of this lexer the two coincide, and all structural theorems
  are representation-independent).
* Each regex in the `REGEXES` table is embedded as an anchored matcher
  `List Char → Option Nat` on the suffix of the source starting at the
  cursor: it returns the length of the match the `regex` crate's
  leftmost-first engine produces at that exact position, or `none`.
  This is faithful to the Rust code because `rgx.find_at(str, ind)`
  returns the leftmost match at or after `ind` and `longest_match`
  discards it unless `find.start() == ind`: the surviving matches are
  exactly the anchored ones.
* The character classes `\w` and `\d` are modelled over ASCII
  (`Char.isAlphanum`, `Char.isDigit`); the Rust crate's Unicode classes
  agree with this on ASCII input.
* The driver loop `tokenize` is embedded with an explicit iteration
  budget (`tokenizeLoop` with fuel); the budget `src.length + 1` is
  proven sufficient below, so the default branch of `tokenize` is
  unreachable and the function agrees with the Rust loop everywhere.
-/

namespace Hex8

/-- Token kinds, from `enum TokKind` in `src/lexer.rs`. -/
inductive TokKind where
  | As | LPar | RPar | LBrc | RBrc | SCol | Add | Sub | Inc | Dec
  | Key | Var | Lit | Cmt | Spc | Nl | CR | Tab
  deriving DecidableEq, Repr

/-- Token record, from `struct Tok` in `src/lexer.rs`: kind, start
position, and the exact matched text. -/
structure Tok where
  kind : TokKind
  pos : Nat
  str : List Char
  deriving DecidableEq, Repr

/-- Length of the maximal leading run of characters satisfying `p`
(the semantics of a greedy `X*` over a single-character class `X`). -/
def countWhile (p : Char → Bool) : List Char → Nat
  | [] => 0
  | c :: rest => if p c then 1 + countWhile p rest else 0

/-- Anchored matcher for a literal character sequence (the regexes
`=`, `\(`, `\)`, `\{`, `\}`, `;`, `\+`, `-`, `\+\+`, `--`, `\n`, `\r`,
`\t` are all literal). -/
def matchChars (pat : List Char) (s : List Char) : Option Nat :=
  if s.take pat.length = pat then some pat.length else none

/-- The keyword list `KEYWORDS` from `src/lexer.rs`: `["char", "int"]`. -/
def KEYWORDS : List (List Char) := [['c', 'h', 'a', 'r'], ['i', 'n', 't']]

/-- Anchored matcher for an alternation of literal words tried in order
(leftmost-first semantics of `char|int`, the regex built from
`KEYWORDS`). -/
def matchAlts (pats : List (List Char)) (s : List Char) : Option Nat :=
  match pats with
  | [] => none
  | p :: ps => if s.take p.length = p then some p.length else matchAlts ps s

/-- The class `[a-zA-Z_]`. -/
def isWordStart (c : Char) : Bool := c.isAlpha || c = '_'

/-- The class `\w` (ASCII: letters, digits, underscore). -/
def isWordChar (c : Char) : Bool := c.isAlphanum || c = '_'

/-- Anchored matcher for the identifier regex `[a-zA-Z_]\w*` (greedy). -/
def matchVar : List Char → Option Nat
  | [] => none
  | c :: rest => if isWordStart c then some (1 + countWhile isWordChar rest) else none

/-- Inner loop of the string-literal regex `"(\\.|[^\\"])*?"` after the
opening quote: lazily close on the first unescaped `"`; an escape `\\.`
consumes the backslash plus one non-newline character; `[^\\"]` consumes
any other single character (including newline). Returns the number of
characters consumed including the closing quote. -/
def matchStrLitAux : List Char → Option Nat
  | [] => none
  | c :: rest =>
    if c = '"' then some 1
    else if c = '\\' then
      match rest with
      | [] => none
      | d :: rest2 => if d = '\n' then none else (matchStrLitAux rest2).map (· + 2)
    else (matchStrLitAux rest).map (· + 1)

/-- Anchored matcher for the string-literal alternative of the `Lit`
regex: `"(\\.|[^\\"])*?"`. -/
def matchStringLit : List Char → Option Nat
  | [] => none
  | c :: rest => if c = '"' then (matchStrLitAux rest).map (· + 1) else none

/-- Anchored matcher for the first char-literal alternative `'[^\']?'`:
quote, optionally one non-quote character (greedy, with backtracking to
the empty option), closing quote. -/
def matchCharLitSimple : List Char → Option Nat
  | q1 :: rest =>
    if q1 = '\'' then
      match rest with
      | [] => none
      | c :: rest2 =>
        if c = '\'' then some 2
        else
          match rest2 with
          | q2 :: _ => if q2 = '\'' then some 3 else none
          | [] => none
    else none
  | [] => none

/-- Tail of the second char-literal alternative `'\\.+?'` after the
quote and backslash: lazily consume one or more non-newline characters
(`.` does not match `\n`), closing on the earliest following quote.
Returns characters consumed including the closing quote. -/
def matchDotsThenQuote : List Char → Option Nat
  | [] => none
  | c :: rest =>
    if c = '\n' then none
    else
      match rest with
      | [] => none
      | d :: _ => if d = '\'' then some 2 else (matchDotsThenQuote rest).map (· + 1)

/-- Anchored matcher for the char-literal part of the `Lit` regex,
`('[^\']?')|('\\.+?')`: leftmost-first, so the simple alternative is
preferred whenever it matches. -/
def matchCharLit (s : List Char) : Option Nat :=
  match matchCharLitSimple s with
  | some n => some n
  | none =>
    match s with
    | q :: b :: rest =>
      if q = '\'' then
        if b = '\\' then (matchDotsThenQuote rest).map (· + 2) else none
      else none
    | _ => none

/-- Anchored matcher for the integer-literal alternative `\d+` (greedy). -/
def matchDigits : List Char → Option Nat
  | [] => none
  | c :: rest => if c.isDigit then some (1 + countWhile Char.isDigit rest) else none

/-- Anchored matcher for the whole `Lit` regex: string literal, char
literal, or digit run (the three alternatives start with distinct
characters, so alternation order is immaterial here). -/
def matchLitTok (s : List Char) : Option Nat :=
  match matchStringLit s with
  | some n => some n
  | none =>
    match matchCharLit s with
    | some n => some n
    | none => matchDigits s

/-- Tail of the block-comment regex `\/\*(.|[\r\n])*?\*\/` after the
opening `/*`: lazily consume any characters up to the earliest `*/`.
Returns characters consumed including the closing `*/`. -/
def findCmtClose : List Char → Option Nat
  | [] => none
  | c :: rest =>
    if c = '*' then
      match rest with
      | [] => none
      | d :: _ => if d = '/' then some 2 else (findCmtClose rest).map (· + 1)
    else (findCmtClose rest).map (· + 1)

/-- Anchored matcher for the `Cmt` regex `//.*|\/\*(.|[\r\n])*?\*\/`:
a line comment runs to the end of the line (`.` matches everything but
`\n`, including `\r`); a block comment runs to the nearest `*/` and may
span newlines. -/
def matchCmt : List Char → Option Nat
  | c :: d :: rest =>
    if c = '/' then
      if d = '/' then some (2 + countWhile (fun e => !(e = '\n')) rest)
      else if d = '*' then (findCmtClose rest).map (· + 2)
      else none
    else none
  | _ => none

/-- Anchored matcher for the space regex ` +` (greedy). -/
def matchSpc : List Char → Option Nat
  | [] => none
  | c :: rest => if c = ' ' then some (1 + countWhile (fun e => e = ' ') rest) else none

/-- The pattern table `REGEXES` from `src/lexer.rs`, in source order.
Order is load-bearing: ties on match length are broken in favor of the
earliest entry (in particular `Key` before `Var`). -/
def REGEXES : List ((List Char → Option Nat) × TokKind) :=
  [ (matchChars [Char.ofNat 61], TokKind.As),
    (matchChars ['('], TokKind.LPar),
    (matchChars [')'], TokKind.RPar),
    (matchChars [Char.ofNat 123], TokKind.LBrc),
    (matchChars [Char.ofNat 125], TokKind.RBrc),
    (matchChars [';'], TokKind.SCol),
    (matchChars ['+'], TokKind.Add),
    (matchChars ['-'], TokKind.Sub),
    (matchChars ['+', '+'], TokKind.Inc),
    (matchChars ['-', '-'], TokKind.Dec),
    (matchAlts KEYWORDS, TokKind.Key),
    (matchVar, TokKind.Var),
    (matchLitTok, TokKind.Lit),
    (matchCmt, TokKind.Cmt),
    (matchSpc, TokKind.Spc),
    (matchChars ['\n'], TokKind.Nl),
    (matchChars ['\r'], TokKind.CR),
    (matchChars ['\t'], TokKind.Tab) ]

/-- One iteration of the `for` loop in `longest_match`: if the pattern
matches the suffix at the cursor, replace the best candidate `max` only
on a strictly longer match (`find.len() > max.as_ref().unwrap().1`), so
on a length tie the earlier entry wins; the candidate token carries
`pos = ind` (that is, `find.start()`) and the matched text. -/
def scanStep (suffix : List Char) (ind : Nat) (rgx : List Char → Option Nat)
    (tkk : TokKind) (max : Option (Tok × Nat)) : Option (Tok × Nat) :=
  match rgx suffix with
  | none => max
  | some len =>
    match max with
    | none => some (⟨tkk, ind, suffix.take len⟩, len)
    | some m => if len > m.2 then some (⟨tkk, ind, suffix.take len⟩, len) else some m

/-- The scanner's fold over the pattern table, from the `for` loop in
`longest_match`: starts from `max = None` and applies `scanStep` for
each table entry in order. -/
def longestMatchAux (suffix : List Char) (ind : Nat) :
    List ((List Char → Option Nat) × TokKind) → Option (Tok × Nat) → Option (Tok × Nat)
  | [], max => max
  | (rgx, tkk) :: rest, max => longestMatchAux suffix ind rest (scanStep suffix ind rgx tkk max)

/-- The scanner `longest_match` from `src/lexer.rs`: among the patterns matching
anchored at `ind`, the longest match wins, ties broken by table order;
the token carries `pos = ind` and the matched text. -/
def longest_match (s : List Char) (ind : Nat) : Option (Tok × Nat) :=
  longestMatchAux (s.drop ind) ind REGEXES none

/-- The driver loop of `tokenize` from `src/lexer.rs`, with an explicit
iteration budget: `none` means the budget ran out (shown below never to
happen with budget `src.length + 1`). Each iteration either returns
(success at end of input, or the `"L + Bozo"` error on no match) or
pushes the scanned token and advances the cursor by the match length. -/
def tokenizeLoop : Nat → List Char → Nat → List Tok → Option (Except String (List Tok))
  | 0, _, _, _ => none
  | fuel + 1, src, ind, out =>
    if ind = src.length then some (Except.ok out)
    else
      match longest_match src ind with
      | none => some (Except.error "L + Bozo")
      | some find => tokenizeLoop fuel src (ind + find.2) (out ++ [find.1])

/-- The entry point `tokenize` from `src/lexer.rs`. The budget `src.length + 1` bounds
the loop's iterations; the default value is dead code by the
termination theorem below. -/
def tokenize (src : List Char) : Except String (List Tok) :=
  (tokenizeLoop (src.length + 1) src 0 []).getD (Except.error "L + Bozo")

/-- Contiguity of a token list starting at position `i`: each token
sits exactly at the running cursor and has non-empty text. -/
def Contig : Nat → List Tok → Prop
  | _, [] => True
  | i, t :: ts => t.pos = i ∧ 1 ≤ t.str.length ∧ Contig (i + t.str.length) ts


theorem countWhile_le (p : Char → Bool) (l : List Char) : countWhile p l ≤ l.length := by
  induction l with
  | nil => simp [countWhile]
  | cons c rest ih =>
    rw [countWhile]
    simp only [List.length_cons]
    split <;> omega

theorem matchChars_sound (pat s : List Char) (n : Nat) (hpat : pat ≠ [])
    (h : matchChars pat s = some n) : 1 ≤ n ∧ n ≤ s.length := by
  unfold matchChars at h
  split at h
  · rename_i htake
    cases h
    refine ⟨?_, ?_⟩
    · cases pat with
      | nil => exact absurd rfl hpat
      | cons _ _ => simp
    · have hlen : (s.take pat.length).length = pat.length := by rw [htake]
      simp only [List.length_take] at hlen
      omega
  · exact absurd h (by simp)

theorem matchAlts_sound (pats : List (List Char)) (s : List Char) (n : Nat)
    (hpats : ∀ p ∈ pats, p ≠ []) (h : matchAlts pats s = some n) : 1 ≤ n ∧ n ≤ s.length := by
  induction pats with
  | nil => simp [matchAlts] at h
  | cons p ps ih =>
    rw [matchAlts] at h
    split at h
    · rename_i htake
      cases h
      refine ⟨?_, ?_⟩
      · have : p ≠ [] := hpats p (by simp)
        cases p with
        | nil => exact absurd rfl this
        | cons _ _ => simp
      · have hlen : (s.take p.length).length = p.length := by rw [htake]
        simp only [List.length_take] at hlen
        omega
    · exact ih (fun q hq => hpats q (List.mem_cons_of_mem _ hq)) h

theorem matchVar_sound (s : List Char) (n : Nat) (h : matchVar s = some n) :
    1 ≤ n ∧ n ≤ s.length := by
  cases s with
  | nil => simp [matchVar] at h
  | cons c rest =>
    rw [matchVar] at h
    split at h
    · cases h
      have := countWhile_le isWordChar rest
      simp only [List.length_cons]
      omega
    · exact absurd h (by simp)

theorem matchDigits_sound (s : List Char) (n : Nat) (h : matchDigits s = some n) :
    1 ≤ n ∧ n ≤ s.length := by
  cases s with
  | nil => simp [matchDigits] at h
  | cons c rest =>
    rw [matchDigits] at h
    split at h
    · cases h
      have := countWhile_le Char.isDigit rest
      simp only [List.length_cons]
      omega
    · exact absurd h (by simp)

theorem matchSpc_sound (s : List Char) (n : Nat) (h : matchSpc s = some n) :
    1 ≤ n ∧ n ≤ s.length := by
  cases s with
  | nil => simp [matchSpc] at h
  | cons c rest =>
    rw [matchSpc] at h
    split at h
    · cases h
      have := countWhile_le (fun e => e = ' ') rest
      simp only [List.length_cons]
      omega
    · exact absurd h (by simp)

theorem matchStrLitAux_sound : ∀ l : List Char, ∀ m : Nat,
    matchStrLitAux l = some m → 1 ≤ m ∧ m ≤ l.length
  | [] => by simp [matchStrLitAux]
  | c :: rest => by
    intro m h
    rw [matchStrLitAux.eq_def] at h
    simp only [] at h
    by_cases hq : c = '"'
    · rw [if_pos hq] at h
      cases h
      simp only [List.length_cons]
      omega
    · rw [if_neg hq] at h
      by_cases hb : c = '\\'
      · rw [if_pos hb] at h
        cases rest with
        | nil => exact absurd h (by simp)
        | cons d rest2 =>
          simp only [] at h
          by_cases hd : d = '\n'
          · rw [if_pos hd] at h
            exact absurd h (by simp)
          · rw [if_neg hd, Option.map_eq_some'] at h
            obtain ⟨k, hk, rfl⟩ := h
            have := matchStrLitAux_sound rest2 k hk
            simp only [List.length_cons]
            omega
      · rw [if_neg hb, Option.map_eq_some'] at h
        obtain ⟨k, hk, rfl⟩ := h
        have := matchStrLitAux_sound rest k hk
        simp only [List.length_cons]
        omega

theorem matchStringLit_sound (s : List Char) (n : Nat) (h : matchStringLit s = some n) :
    1 ≤ n ∧ n ≤ s.length := by
  cases s with
  | nil => simp [matchStringLit] at h
  | cons c rest =>
    rw [matchStringLit] at h
    split at h
    · simp only [Option.map_eq_some'] at h
      obtain ⟨k, hk, rfl⟩ := h
      have := matchStrLitAux_sound rest k hk
      simp only [List.length_cons]
      omega
    · exact absurd h (by simp)

theorem matchDotsThenQuote_sound : ∀ l : List Char, ∀ m : Nat,
    matchDotsThenQuote l = some m → 1 ≤ m ∧ m ≤ l.length
  | [] => by simp [matchDotsThenQuote]
  | c :: rest => by
    intro m h
    rw [matchDotsThenQuote.eq_def] at h
    simp only [] at h
    by_cases hn : c = '\n'
    · rw [if_pos hn] at h
      exact absurd h (by simp)
    · rw [if_neg hn] at h
      cases rest with
      | nil => exact absurd h (by simp)
      | cons d rest2 =>
        simp only [] at h
        by_cases hd : d = '\''
        · rw [if_pos hd] at h
          cases h
          simp only [List.length_cons]
          omega
        · rw [if_neg hd, Option.map_eq_some'] at h
          obtain ⟨k, hk, rfl⟩ := h
          have := matchDotsThenQuote_sound (d :: rest2) k hk
          simp only [List.length_cons] at this ⊢
          omega

theorem findCmtClose_sound : ∀ l : List Char, ∀ m : Nat,
    findCmtClose l = some m → 1 ≤ m ∧ m ≤ l.length
  | [] => by simp [findCmtClose]
  | c :: rest => by
    intro m h
    rw [findCmtClose.eq_def] at h
    simp only [] at h
    by_cases hs : c = '*'
    · rw [if_pos hs] at h
      cases rest with
      | nil => exact absurd h (by simp)
      | cons d rest2 =>
        simp only [] at h
        by_cases hd : d = '/'
        · rw [if_pos hd] at h
          cases h
          simp only [List.length_cons]
          omega
        · rw [if_neg hd, Option.map_eq_some'] at h
          obtain ⟨k, hk, rfl⟩ := h
          have := findCmtClose_sound (d :: rest2) k hk
          simp only [List.length_cons] at this ⊢
          omega
    · rw [if_neg hs, Option.map_eq_some'] at h
      obtain ⟨k, hk, rfl⟩ := h
      have := findCmtClose_sound rest k hk
      simp only [List.length_cons]
      omega

theorem matchCharLitSimple_sound (s : List Char) (n : Nat)
    (h : matchCharLitSimple s = some n) : 1 ≤ n ∧ n ≤ s.length := by
  cases s with
  | nil => simp [matchCharLitSimple] at h
  | cons q1 rest =>
    rw [matchCharLitSimple.eq_def] at h
    simp only [] at h
    by_cases hq : q1 = '\''
    · rw [if_pos hq] at h
      cases rest with
      | nil => exact absurd h (by simp)
      | cons c rest2 =>
        simp only [] at h
        by_cases hc : c = '\''
        · rw [if_pos hc] at h
          cases h
          simp only [List.length_cons]
          omega
        · rw [if_neg hc] at h
          cases rest2 with
          | nil => exact absurd h (by simp)
          | cons q2 rest3 =>
            simp only [] at h
            by_cases h2 : q2 = '\''
            · rw [if_pos h2] at h
              cases h
              simp only [List.length_cons]
              omega
            · rw [if_neg h2] at h
              exact absurd h (by simp)
    · rw [if_neg hq] at h
      exact absurd h (by simp)

theorem matchCharLit_sound (s : List Char) (n : Nat)
    (h : matchCharLit s = some n) : 1 ≤ n ∧ n ≤ s.length := by
  unfold matchCharLit at h
  cases hsimp : matchCharLitSimple s with
  | some k =>
    rw [hsimp] at h
    cases h
    exact matchCharLitSimple_sound s _ hsimp
  | none =>
    rw [hsimp] at h
    rcases s with _ | ⟨q, _ | ⟨b, rest⟩⟩
    · simp only [] at h
      exact Option.noConfusion h
    · simp only [] at h
      exact Option.noConfusion h
    · simp only [] at h
      by_cases hq : q = '\''
      · rw [if_pos hq] at h
        by_cases hb : b = '\\'
        · rw [if_pos hb, Option.map_eq_some'] at h
          obtain ⟨k, hk, rfl⟩ := h
          have := matchDotsThenQuote_sound rest k hk
          simp only [List.length_cons]
          omega
        · rw [if_neg hb] at h
          exact absurd h (by simp)
      · rw [if_neg hq] at h
        exact absurd h (by simp)

theorem matchLitTok_sound (s : List Char) (n : Nat)
    (h : matchLitTok s = some n) : 1 ≤ n ∧ n ≤ s.length := by
  unfold matchLitTok at h
  cases h1 : matchStringLit s with
  | some k =>
    rw [h1] at h
    cases h
    exact matchStringLit_sound s _ h1
  | none =>
    rw [h1] at h
    cases h2 : matchCharLit s with
    | some k =>
      rw [h2] at h
      cases h
      exact matchCharLit_sound s _ h2
    | none =>
      rw [h2] at h
      exact matchDigits_sound s n h

theorem matchCmt_sound (s : List Char) (n : Nat)
    (h : matchCmt s = some n) : 1 ≤ n ∧ n ≤ s.length := by
  rcases s with _ | ⟨c, _ | ⟨d, rest⟩⟩
  · simp [matchCmt] at h
  · simp [matchCmt] at h
  · rw [matchCmt.eq_def] at h
    simp only [] at h
    by_cases hc : c = '/'
    · rw [if_pos hc] at h
      by_cases hd : d = '/'
      · rw [if_pos hd] at h
        cases h
        have := countWhile_le (fun e => !(e = '\n')) rest
        simp only [List.length_cons]
        omega
      · rw [if_neg hd] at h
        by_cases hd2 : d = '*'
        · rw [if_pos hd2, Option.map_eq_some'] at h
          obtain ⟨k, hk, rfl⟩ := h
          have := findCmtClose_sound rest k hk
          simp only [List.length_cons]
          omega
        · rw [if_neg hd2] at h
          exact absurd h (by simp)
    · rw [if_neg hc] at h
      exact absurd h (by simp)

theorem regexes_sound (e : (List Char → Option Nat) × TokKind) (he : e ∈ REGEXES)
    (s : List Char) (n : Nat) (h : e.1 s = some n) : 1 ≤ n ∧ n ≤ s.length := by
  simp only [REGEXES, List.mem_cons, List.not_mem_nil, or_false] at he
  rcases he with rfl|rfl|rfl|rfl|rfl|rfl|rfl|rfl|rfl|rfl|rfl|rfl|rfl|rfl|rfl|rfl|rfl|rfl
  · exact matchChars_sound _ s n (by simp) h
  · exact matchChars_sound _ s n (by simp) h
  · exact matchChars_sound _ s n (by simp) h
  · exact matchChars_sound _ s n (by simp) h
  · exact matchChars_sound _ s n (by simp) h
  · exact matchChars_sound _ s n (by simp) h
  · exact matchChars_sound _ s n (by simp) h
  · exact matchChars_sound _ s n (by simp) h
  · exact matchChars_sound _ s n (by simp) h
  · exact matchChars_sound _ s n (by simp) h
  · exact matchAlts_sound _ s n (by simp [KEYWORDS]) h
  · exact matchVar_sound s n h
  · exact matchLitTok_sound s n h
  · exact matchCmt_sound s n h
  · exact matchSpc_sound s n h
  · exact matchChars_sound _ s n (by simp) h
  · exact matchChars_sound _ s n (by simp) h
  · exact matchChars_sound _ s n (by simp) h


theorem scanStep_sound (suffix : List Char) (ind : Nat) (rgx : List Char → Option Nat)
    (tkk : TokKind) (max : Option (Tok × Nat))
    (hrgx : ∀ s k, rgx s = some k → 1 ≤ k ∧ k ≤ s.length)
    (hmax : ∀ t k, max = some (t, k) →
      t.pos = ind ∧ t.str = suffix.take k ∧ 1 ≤ k ∧ k ≤ suffix.length)
    (t : Tok) (n : Nat) (h : scanStep suffix ind rgx tkk max = some (t, n)) :
    t.pos = ind ∧ t.str = suffix.take n ∧ 1 ≤ n ∧ n ≤ suffix.length := by
  unfold scanStep at h
  cases hr : rgx suffix with
  | none =>
    rw [hr] at h
    exact hmax t n h
  | some len =>
    rw [hr] at h
    have hlen := hrgx suffix len hr
    cases max with
    | none =>
      simp only [] at h
      cases h
      exact ⟨rfl, rfl, hlen.1, hlen.2⟩
    | some m =>
      simp only [] at h
      split at h
      · cases h
        exact ⟨rfl, rfl, hlen.1, hlen.2⟩
      · exact hmax t n h

theorem longestMatchAux_sound (suffix : List Char) (ind : Nat)
    (l : List ((List Char → Option Nat) × TokKind))
    (hl : ∀ e ∈ l, ∀ s k, e.1 s = some k → 1 ≤ k ∧ k ≤ s.length)
    (max : Option (Tok × Nat))
    (hmax : ∀ t k, max = some (t, k) →
      t.pos = ind ∧ t.str = suffix.take k ∧ 1 ≤ k ∧ k ≤ suffix.length)
    (t : Tok) (n : Nat) (h : longestMatchAux suffix ind l max = some (t, n)) :
    t.pos = ind ∧ t.str = suffix.take n ∧ 1 ≤ n ∧ n ≤ suffix.length := by
  induction l generalizing max with
  | nil => exact hmax t n h
  | cons e rest ih =>
    obtain ⟨rgx, tkk⟩ := e
    rw [longestMatchAux] at h
    exact ih (fun e' he' => hl e' (List.mem_cons_of_mem _ he')) _
      (scanStep_sound suffix ind rgx tkk max (hl (rgx, tkk) (by simp) ·) hmax) h

theorem longest_match_sound (s : List Char) (ind : Nat) (t : Tok) (n : Nat)
    (h : longest_match s ind = some (t, n)) :
    t.pos = ind ∧ t.str = (s.drop ind).take n ∧ 1 ≤ n ∧ n ≤ s.length - ind := by
  have hres := longestMatchAux_sound (s.drop ind) ind REGEXES regexes_sound none
    (by simp) t n h
  simpa [List.length_drop] using hres

theorem scanStep_eq_none_iff (suffix : List Char) (ind : Nat)
    (rgx : List Char → Option Nat) (tkk : TokKind) (max : Option (Tok × Nat)) :
    scanStep suffix ind rgx tkk max = none ↔ max = none ∧ rgx suffix = none := by
  unfold scanStep
  cases hr : rgx suffix with
  | none => simp
  | some len =>
    cases max with
    | none => simp
    | some m =>
      simp only []
      constructor
      · intro h
        split at h <;> exact Option.noConfusion h
      · rintro ⟨h1, h2⟩
        exact Option.noConfusion h1

theorem longestMatchAux_eq_none_iff (suffix : List Char) (ind : Nat)
    (l : List ((List Char → Option Nat) × TokKind)) (max : Option (Tok × Nat)) :
    longestMatchAux suffix ind l max = none ↔
      max = none ∧ ∀ e ∈ l, e.1 suffix = none := by
  induction l generalizing max with
  | nil => simp [longestMatchAux]
  | cons e rest ih =>
    obtain ⟨rgx, tkk⟩ := e
    rw [longestMatchAux, ih, scanStep_eq_none_iff]
    constructor
    · rintro ⟨⟨h1, hr⟩, h2⟩
      refine ⟨h1, fun e' he' => ?_⟩
      rcases List.mem_cons.mp he' with rfl | hmem
      · exact hr
      · exact h2 e' hmem
    · rintro ⟨h1, h2⟩
      exact ⟨⟨h1, h2 (rgx, tkk) (List.mem_cons_self _ _)⟩,
        fun e' he' => h2 e' (List.mem_cons_of_mem _ he')⟩

theorem longest_match_none_of_end (s : List Char) (ind : Nat) (hend : s.length ≤ ind) :
    longest_match s ind = none := by
  rw [longest_match, longestMatchAux_eq_none_iff]
  refine ⟨rfl, fun e he => ?_⟩
  cases hr : e.1 (s.drop ind) with
  | none => rfl
  | some k =>
    have hb := regexes_sound e he _ k hr
    rw [List.length_drop] at hb
    omega

theorem tokenizeLoop_total : ∀ (fuel : Nat) (src : List Char) (ind : Nat) (out : List Tok),
    src.length - ind < fuel → ∃ r, tokenizeLoop fuel src ind out = some r
  | 0, src, ind, out => by
    intro hfuel
    omega
  | fuel + 1, src, ind, out => by
    intro hfuel
    rw [tokenizeLoop]
    split
    · exact ⟨_, rfl⟩
    · rename_i hind
      cases hm : longest_match src ind with
      | none => exact ⟨_, rfl⟩
      | some find =>
        obtain ⟨t, n⟩ := find
        have hs := longest_match_sound src ind t n hm
        exact tokenizeLoop_total fuel src (ind + n) (out ++ [t]) (by omega)

theorem tokenizeLoop_sound : ∀ (fuel : Nat) (src : List Char) (ind : Nat) (out ts : List Tok),
    tokenizeLoop fuel src ind out = some (Except.ok ts) →
    ∃ rest, ts = out ++ rest ∧ Contig ind rest ∧ (rest.map Tok.str).flatten = src.drop ind
  | 0, src, ind, out, ts => by simp [tokenizeLoop]
  | fuel + 1, src, ind, out, ts => by
    intro h
    rw [tokenizeLoop] at h
    split at h
    · rename_i hind
      simp only [Option.some.injEq, Except.ok.injEq] at h
      refine ⟨[], by simp [h], trivial, ?_⟩
      simp [hind, List.drop_length]
    · rename_i hind
      cases hm : longest_match src ind with
      | none =>
        rw [hm] at h
        simp at h
      | some find =>
        rw [hm] at h
        obtain ⟨t, n⟩ := find
        have hs := longest_match_sound src ind t n hm
        obtain ⟨rest, hrest, hcontig, hjoin⟩ :=
          tokenizeLoop_sound fuel src (ind + n) (out ++ [t]) ts h
        have hlen : t.str.length = n := by
          rw [hs.2.1]
          simp only [List.length_take, List.length_drop]
          omega
        refine ⟨t :: rest, by simp [hrest], ⟨hs.1, by omega, ?_⟩, ?_⟩
        · rw [hlen]
          exact hcontig
        · simp only [List.map_cons, List.flatten_cons]
          rw [hjoin, hs.2.1]
          have hdd : (List.drop ind src).drop n = List.drop (ind + n) src := by
            rw [List.drop_drop]
          rw [← hdd]
          exact List.take_append_drop n (List.drop ind src)

theorem tokenize_ok_loop (src : List Char) (ts : List Tok) (h : tokenize src = Except.ok ts) :
    tokenizeLoop (src.length + 1) src 0 [] = some (Except.ok ts) := by
  obtain ⟨r, hr⟩ := tokenizeLoop_total (src.length + 1) src 0 [] (by omega)
  rw [tokenize, hr] at h
  simp only [Option.getD_some] at h
  rw [hr, h]

theorem Contig.chain : ∀ (i : Nat) (ts : List Tok), Contig i ts →
    List.Chain' (fun a b => a.pos + a.str.length = b.pos) ts
  | _, [], _ => List.chain'_nil
  | _, [_], _ => by simp
  | i, t :: u :: ts, h => by
    obtain ⟨hpos, hlen, hrest⟩ := h
    rw [List.chain'_cons]
    refine ⟨?_, Contig.chain _ _ hrest⟩
    have := hrest.1
    omega

theorem Contig.le_pos : ∀ (i : Nat) (ts : List Tok), Contig i ts → ∀ t ∈ ts, i ≤ t.pos
  | _, [], _ => by simp
  | i, t :: ts, h => by
    obtain ⟨hpos, hlen, hrest⟩ := h
    intro u hu
    rcases List.mem_cons.mp hu with rfl | hu
    · omega
    · have := Contig.le_pos _ _ hrest u hu
      omega

theorem Contig.pairwise : ∀ (i : Nat) (ts : List Tok), Contig i ts →
    List.Pairwise (fun a b => a.pos < b.pos) ts
  | _, [], _ => List.Pairwise.nil
  | i, t :: ts, h => by
    obtain ⟨hpos, hlen, hrest⟩ := h
    refine List.Pairwise.cons ?_ (Contig.pairwise _ _ hrest)
    intro u hu
    have := Contig.le_pos _ _ hrest u hu
    omega

theorem Contig.head_pos (i : Nat) (ts : List Tok) (h : Contig i ts)
    (t : Tok) (ht : ts.head? = some t) : t.pos = i := by
  cases ts with
  | nil => exact absurd ht (by simp)
  | cons u us =>
    simp only [List.head?_cons, Option.some.injEq] at ht
    rw [← ht]
    exact h.1


theorem scanStep_none (suffix : List Char) (ind : Nat) (rgx : List Char → Option Nat)
    (tkk : TokKind) (max : Option (Tok × Nat)) (h : rgx suffix = none) :
    scanStep suffix ind rgx tkk max = max := by
  unfold scanStep
  rw [h]

theorem scanStep_some_none (suffix : List Char) (ind : Nat) (rgx : List Char → Option Nat)
    (tkk : TokKind) (len : Nat) (h : rgx suffix = some len) :
    scanStep suffix ind rgx tkk none = some (⟨tkk, ind, suffix.take len⟩, len) := by
  unfold scanStep
  rw [h]

theorem scanStep_some_gt (suffix : List Char) (ind : Nat) (rgx : List Char → Option Nat)
    (tkk : TokKind) (len : Nat) (m : Tok × Nat) (h : rgx suffix = some len)
    (hm : m.2 < len) :
    scanStep suffix ind rgx tkk (some m) = some (⟨tkk, ind, suffix.take len⟩, len) := by
  unfold scanStep
  rw [h]
  simp only []
  rw [if_pos hm]

theorem scanStep_some_le (suffix : List Char) (ind : Nat) (rgx : List Char → Option Nat)
    (tkk : TokKind) (len : Nat) (m : Tok × Nat) (h : rgx suffix = some len)
    (hm : len ≤ m.2) :
    scanStep suffix ind rgx tkk (some m) = some m := by
  unfold scanStep
  rw [h]
  simp only []
  rw [if_neg (by omega)]

theorem longestMatchAux_char (suffix : List Char) (ind : Nat) :
    ∀ (l : List ((List Char → Option Nat) × TokKind)) (max : Option (Tok × Nat))
      (t : Tok) (n : Nat),
    longestMatchAux suffix ind l max = some (t, n) →
    (max = some (t, n) ∧ ∀ e ∈ l, ∀ m, e.1 suffix = some m → m ≤ n)
    ∨ (∃ pre e post, l = pre ++ e :: post ∧ e.1 suffix = some n ∧
        t = ⟨e.2, ind, suffix.take n⟩ ∧
        (∀ p, max = some p → p.2 < n) ∧
        (∀ e' ∈ pre, ∀ m, e'.1 suffix = some m → m < n) ∧
        (∀ e' ∈ post, ∀ m, e'.1 suffix = some m → m ≤ n)) := by
  intro l
  induction l with
  | nil =>
    intro max t n h
    exact Or.inl ⟨h, by simp⟩
  | cons e rest ih =>
    intro max t n h
    obtain ⟨rgx, tkk⟩ := e
    rw [longestMatchAux] at h
    rcases ih (scanStep suffix ind rgx tkk max) t n h with
      ⟨hmax, hrest⟩ | ⟨pre, e, post, hsplit, he, ht, hmax, hpre, hpost⟩
    · cases hr : rgx suffix with
      | none =>
        rw [scanStep_none suffix ind rgx tkk max hr] at hmax
        refine Or.inl ⟨hmax, fun e' he' m hm => ?_⟩
        rcases List.mem_cons.mp he' with rfl | hmem
        · have hm2 : rgx suffix = some m := hm
          rw [hr] at hm2
          exact Option.noConfusion hm2
        · exact hrest e' hmem m hm
      | some len =>
        cases max with
        | none =>
          rw [scanStep_some_none suffix ind rgx tkk len hr] at hmax
          simp only [Option.some.injEq, Prod.mk.injEq] at hmax
          obtain ⟨ht', hn'⟩ := hmax
          subst hn'
          subst ht'
          refine Or.inr ⟨[], (rgx, tkk), rest, by simp, hr, rfl, by simp, by simp,
            fun e' he' m hm => hrest e' he' m hm⟩
        | some m =>
          by_cases hlt : m.2 < len
          · rw [scanStep_some_gt suffix ind rgx tkk len m hr hlt] at hmax
            simp only [Option.some.injEq, Prod.mk.injEq] at hmax
            obtain ⟨ht', hn'⟩ := hmax
            subst hn'
            subst ht'
            refine Or.inr ⟨[], (rgx, tkk), rest, by simp, hr, rfl, ?_, by simp,
              fun e' he' m' hm' => hrest e' he' m' hm'⟩
            intro p hp
            cases hp
            exact hlt
          · rw [scanStep_some_le suffix ind rgx tkk len m hr (by omega)] at hmax
            refine Or.inl ⟨hmax, fun e' he' m' hm' => ?_⟩
            rcases List.mem_cons.mp he' with rfl | hmem
            · have hm2 : rgx suffix = some m' := hm'
              rw [hr] at hm2
              cases hm2
              injection hmax with hmax2
              have h2 : m.2 = n := by rw [hmax2]
              omega
            · exact hrest e' hmem m' hm'
    · refine Or.inr ⟨(rgx, tkk) :: pre, e, post, by rw [hsplit, List.cons_append], he, ht,
        ?_, ?_, hpost⟩
      · intro p hp
        subst hp
        cases hr : rgx suffix with
        | none =>
          exact hmax p (by rw [scanStep_none suffix ind rgx tkk (some p) hr])
        | some len =>
          by_cases hlt : p.2 < len
          · have hbig := hmax (⟨tkk, ind, suffix.take len⟩, len)
              (scanStep_some_gt suffix ind rgx tkk len p hr hlt)
            simp only [] at hbig
            omega
          · exact hmax p (scanStep_some_le suffix ind rgx tkk len p hr (by omega))
      · intro e' he' m' hm'
        rcases List.mem_cons.mp he' with rfl | hmem
        · simp only [] at hm'
          cases max with
          | none =>
            have hbig := hmax (⟨tkk, ind, suffix.take m'⟩, m')
              (scanStep_some_none suffix ind rgx tkk m' hm')
            simpa using hbig
          | some m =>
            by_cases hlt : m.2 < m'
            · have hbig := hmax (⟨tkk, ind, suffix.take m'⟩, m')
                (scanStep_some_gt suffix ind rgx tkk m' m hm' hlt)
              simpa using hbig
            · have hbig := hmax m (scanStep_some_le suffix ind rgx tkk m' m hm' (by omega))
              simp only [] at hbig
              omega
        · exact hpre e' hmem m' hm'

theorem Contig.str_pos : ∀ (i : Nat) (ts : List Tok), Contig i ts →
    ∀ t ∈ ts, 1 ≤ t.str.length
  | _, [], _ => by simp
  | i, t :: ts, h => by
    obtain ⟨hpos, hlen, hrest⟩ := h
    intro u hu
    rcases List.mem_cons.mp hu with rfl | hu
    · exact hlen
    · exact Contig.str_pos _ _ hrest u hu


theorem take_cons_ne (c d : Char) (pat rest : List Char) (hne : c ≠ d) :
    ¬ (c :: rest).take (d :: pat).length = d :: pat := by
  simp only [List.length_cons, List.take_succ_cons, List.cons.injEq, not_and]
  intro hcd
  exact absurd hcd hne

theorem matchChars_head_ne (c d : Char) (pat rest : List Char) (hne : c ≠ d) :
    matchChars (d :: pat) (c :: rest) = none := by
  rw [matchChars, if_neg (take_cons_ne c d pat rest hne)]

theorem matchAlts_keywords_ne (c : Char) (rest : List Char) (h1 : c ≠ 'c') (h2 : c ≠ 'i') :
    matchAlts KEYWORDS (c :: rest) = none := by
  rw [KEYWORDS, matchAlts, if_neg (take_cons_ne c 'c' _ rest h1),
    matchAlts, if_neg (take_cons_ne c 'i' _ rest h2), matchAlts]

theorem matchVar_not_start (c : Char) (rest : List Char) (h : isWordStart c = false) :
    matchVar (c :: rest) = none := by
  rw [matchVar, if_neg (by simp [h])]

theorem matchLitTok_head_none (c : Char) (rest : List Char)
    (h1 : ¬ c = '"') (h2 : ¬ c = '\'') (h3 : c.isDigit = false) :
    matchLitTok (c :: rest) = none := by
  have hs : matchStringLit (c :: rest) = none := by
    simp [matchStringLit, h1]
  have hcs : matchCharLitSimple (c :: rest) = none := by
    simp [matchCharLitSimple, h2]
  have hcl : matchCharLit (c :: rest) = none := by
    cases rest with
    | nil => simp [matchCharLit, hcs]
    | cons b rest2 => simp [matchCharLit, hcs, h2]
  have hd : matchDigits (c :: rest) = none := by
    simp [matchDigits, h3]
  simp [matchLitTok, hs, hcl, hd]

theorem matchCmt_head_none (c : Char) (rest : List Char) (h : ¬ c = '/') :
    matchCmt (c :: rest) = none := by
  cases rest with
  | nil => rfl
  | cons d rest2 => rw [matchCmt, if_neg h]

theorem matchSpc_head_none (c : Char) (rest : List Char) (h : ¬ c = ' ') :
    matchSpc (c :: rest) = none := by
  rw [matchSpc, if_neg h]

theorem longest_match_at_sign (rest : List Char) :
    longest_match ('@' :: rest) 0 = none := by
  rw [longest_match, longestMatchAux_eq_none_iff]
  refine ⟨rfl, fun e he => ?_⟩
  simp only [List.drop_zero]
  simp only [REGEXES, List.mem_cons, List.not_mem_nil, or_false] at he
  rcases he with rfl|rfl|rfl|rfl|rfl|rfl|rfl|rfl|rfl|rfl|rfl|rfl|rfl|rfl|rfl|rfl|rfl|rfl
  · exact matchChars_head_ne '@' (Char.ofNat 61) [] rest (by decide)
  · exact matchChars_head_ne '@' '(' [] rest (by decide)
  · exact matchChars_head_ne '@' ')' [] rest (by decide)
  · exact matchChars_head_ne '@' (Char.ofNat 123) [] rest (by decide)
  · exact matchChars_head_ne '@' (Char.ofNat 125) [] rest (by decide)
  · exact matchChars_head_ne '@' ';' [] rest (by decide)
  · exact matchChars_head_ne '@' '+' [] rest (by decide)
  · exact matchChars_head_ne '@' '-' [] rest (by decide)
  · exact matchChars_head_ne '@' '+' ['+'] rest (by decide)
  · exact matchChars_head_ne '@' '-' ['-'] rest (by decide)
  · exact matchAlts_keywords_ne '@' rest (by decide) (by decide)
  · exact matchVar_not_start '@' rest (by decide)
  · exact matchLitTok_head_none '@' rest (by decide) (by decide) (by decide)
  · exact matchCmt_head_none '@' rest (by decide)
  · exact matchSpc_head_none '@' rest (by decide)
  · exact matchChars_head_ne '@' '\n' [] rest (by decide)
  · exact matchChars_head_ne '@' '\r' [] rest (by decide)
  · exact matchChars_head_ne '@' '\t' [] rest (by decide)

theorem longest_match_quote_head (rest : List Char) (n : Nat)
    (hlit : matchLitTok ('\'' :: rest) = some n) :
    longest_match ('\'' :: rest) 0 =
      some (⟨TokKind.Lit, 0, ('\'' :: rest).take n⟩, n) := by
  rw [longest_match]
  simp only [List.drop_zero]
  rw [REGEXES]
  rw [longestMatchAux, scanStep_none _ _ _ _ _
    (matchChars_head_ne '\'' (Char.ofNat 61) [] rest (by decide))]
  rw [longestMatchAux, scanStep_none _ _ _ _ _ (matchChars_head_ne '\'' '(' [] rest (by decide))]
  rw [longestMatchAux, scanStep_none _ _ _ _ _ (matchChars_head_ne '\'' ')' [] rest (by decide))]
  rw [longestMatchAux, scanStep_none _ _ _ _ _
    (matchChars_head_ne '\'' (Char.ofNat 123) [] rest (by decide))]
  rw [longestMatchAux, scanStep_none _ _ _ _ _
    (matchChars_head_ne '\'' (Char.ofNat 125) [] rest (by decide))]
  rw [longestMatchAux, scanStep_none _ _ _ _ _ (matchChars_head_ne '\'' ';' [] rest (by decide))]
  rw [longestMatchAux, scanStep_none _ _ _ _ _ (matchChars_head_ne '\'' '+' [] rest (by decide))]
  rw [longestMatchAux, scanStep_none _ _ _ _ _ (matchChars_head_ne '\'' '-' [] rest (by decide))]
  rw [longestMatchAux, scanStep_none _ _ _ _ _
    (matchChars_head_ne '\'' '+' ['+'] rest (by decide))]
  rw [longestMatchAux, scanStep_none _ _ _ _ _
    (matchChars_head_ne '\'' '-' ['-'] rest (by decide))]
  rw [longestMatchAux, scanStep_none _ _ _ _ _
    (matchAlts_keywords_ne '\'' rest (by decide) (by decide))]
  rw [longestMatchAux, scanStep_none _ _ _ _ _ (matchVar_not_start '\'' rest (by decide))]
  rw [longestMatchAux, scanStep_some_none _ _ _ _ _ hlit]
  rw [longestMatchAux, scanStep_none _ _ _ _ _ (matchCmt_head_none '\'' rest (by decide))]
  rw [longestMatchAux, scanStep_none _ _ _ _ _ (matchSpc_head_none '\'' rest (by decide))]
  rw [longestMatchAux, scanStep_none _ _ _ _ _
    (matchChars_head_ne '\'' '\n' [] rest (by decide))]
  rw [longestMatchAux, scanStep_none _ _ _ _ _
    (matchChars_head_ne '\'' '\r' [] rest (by decide))]
  rw [longestMatchAux, scanStep_none _ _ _ _ _
    (matchChars_head_ne '\'' '\t' [] rest (by decide))]
  rw [longestMatchAux]

theorem matchLitTok_charlit (c : Char) (hc : ¬ c = '\'') :
    matchLitTok ['\'', c, '\''] = some 3 := by
  have hs : matchStringLit ['\'', c, '\''] = none := by
    simp [matchStringLit]
  have hcs : matchCharLitSimple ['\'', c, '\''] = some 3 := by
    simp [matchCharLitSimple, hc]
  have hcl : matchCharLit ['\'', c, '\''] = some 3 := by
    simp [matchCharLit, hcs]
  simp [matchLitTok, hs, hcl]

theorem matchLitTok_esc (c : Char) (hc : ¬ c = '\'') (hn : ¬ c = '\n') :
    matchLitTok ['\'', '\\', c, '\''] = some 4 := by
  have hs : matchStringLit ['\'', '\\', c, '\''] = none := by
    simp [matchStringLit]
  have hcs : matchCharLitSimple ['\'', '\\', c, '\''] = none := by
    simp [matchCharLitSimple, hc]
  have hdq : matchDotsThenQuote [c, '\''] = some 2 := by
    simp [matchDotsThenQuote, hn]
  have hcl : matchCharLit ['\'', '\\', c, '\''] = some 4 := by
    simp [matchCharLit, hcs, hdq]
  simp [matchLitTok, hs, hcl]

theorem tokenize_single (src : List Char) (t : Tok)
    (h : longest_match src 0 = some (t, src.length)) (hpos : ¬ 0 = src.length) :
    tokenize src = Except.ok [t] := by
  rw [tokenize, tokenizeLoop, if_neg hpos, h]
  simp only [List.nil_append, Nat.zero_add]
  cases hlen : src.length with
  | zero => exact absurd hlen (by omega)
  | succ k =>
    rw [tokenizeLoop, if_pos hlen.symm, Option.getD_some]

/-- C1: for every input on which `tokenize` succeeds, concatenating the
text of every returned token in order yields exactly the original input
(no character is dropped, skipped, or duplicated). -/
theorem c1_reconstruction (src : List Char) (ts : List Tok)
    (h : tokenize src = Except.ok ts) :
    (ts.map Tok.str).flatten = src := by
  have hloop := tokenize_ok_loop src ts h
  obtain ⟨rest, hrest, hcontig, hjoin⟩ := tokenizeLoop_sound _ src 0 [] ts hloop
  simp only [List.nil_append] at hrest
  subst hrest
  rw [hjoin, List.drop_zero]

/-- Witness for C1 at the concrete input `"+;"`. -/
theorem c1_reconstruction_witness :
    (([⟨TokKind.Add, 0, ['+']⟩, ⟨TokKind.SCol, 1, [';']⟩] : List Tok).map Tok.str).flatten
      = "+;".toList :=
  c1_reconstruction "+;".toList _ rfl

/-- C2: on success the first token starts at position 0, consecutive
tokens are contiguous (`pos + length of text = next pos`), and the `pos`
values are strictly increasing. -/
theorem c2_positions (src : List Char) (ts : List Tok)
    (h : tokenize src = Except.ok ts) :
    (∀ t, ts.head? = some t → t.pos = 0) ∧
    List.Chain' (fun a b => a.pos + a.str.length = b.pos) ts ∧
    List.Pairwise (fun a b => a.pos < b.pos) ts := by
  have hloop := tokenize_ok_loop src ts h
  obtain ⟨rest, hrest, hcontig, hjoin⟩ := tokenizeLoop_sound _ src 0 [] ts hloop
  simp only [List.nil_append] at hrest
  subst hrest
  exact ⟨fun t ht => Contig.head_pos 0 _ hcontig t ht,
    Contig.chain 0 _ hcontig, Contig.pairwise 0 _ hcontig⟩

/-- Witness for C2 at the concrete input `"--"`. -/
theorem c2_positions_witness :
    (∀ t, ([⟨TokKind.Dec, 0, ['-', '-']⟩] : List Tok).head? = some t → t.pos = 0) ∧
    List.Chain' (fun a b => a.pos + a.str.length = b.pos)
      ([⟨TokKind.Dec, 0, ['-', '-']⟩] : List Tok) ∧
    List.Pairwise (fun a b => a.pos < b.pos)
      ([⟨TokKind.Dec, 0, ['-', '-']⟩] : List Tok) :=
  c2_positions "--".toList _ rfl

/-- C3: the scanner considers only matches anchored at `i` (all
candidates are evaluated on `s.drop i` and the token's position is `i`);
it returns `none` exactly when no pattern matches there, and otherwise
the winning entry matches with the greatest length among all entries,
with every earlier entry matching strictly shorter (so equal-length ties
go to the earliest entry in the table). -/
theorem c3_scanner_selection (s : List Char) (i : Nat) :
    (longest_match s i = none ↔ ∀ e ∈ REGEXES, e.1 (s.drop i) = none) ∧
    (∀ t n, longest_match s i = some (t, n) →
      t.pos = i ∧ t.str = (s.drop i).take n ∧
      ∃ pre e post, REGEXES = pre ++ e :: post ∧
        e.1 (s.drop i) = some n ∧ t.kind = e.2 ∧
        (∀ e' ∈ pre, ∀ m, e'.1 (s.drop i) = some m → m < n) ∧
        (∀ e' ∈ post, ∀ m, e'.1 (s.drop i) = some m → m ≤ n)) := by
  constructor
  · rw [longest_match, longestMatchAux_eq_none_iff]
    exact ⟨fun h => h.2, fun h => ⟨rfl, h⟩⟩
  · intro t n h
    have hs := longest_match_sound s i t n h
    rw [longest_match] at h
    rcases longestMatchAux_char (s.drop i) i REGEXES none t n h with
      ⟨hmax, _⟩ | ⟨pre, e, post, hsplit, he, ht, _, hpre, hpost⟩
    · exact absurd hmax (by simp)
    · exact ⟨hs.1, hs.2.1, pre, e, post, hsplit, he, by rw [ht], hpre, hpost⟩

/-- Witness for C3 at `s = "++"`, `i = 0`, where the increment pattern
wins with length 2. -/
theorem c3_scanner_selection_witness :
    (⟨TokKind.Inc, 0, ['+', '+']⟩ : Tok).pos = 0 ∧
    (⟨TokKind.Inc, 0, ['+', '+']⟩ : Tok).str = ("++".toList.drop 0).take 2 ∧
    ∃ pre e post, REGEXES = pre ++ e :: post ∧
      e.1 ("++".toList.drop 0) = some 2 ∧
      (⟨TokKind.Inc, 0, ['+', '+']⟩ : Tok).kind = e.2 ∧
      (∀ e' ∈ pre, ∀ m, e'.1 ("++".toList.drop 0) = some m → m < 2) ∧
      (∀ e' ∈ post, ∀ m, e'.1 ("++".toList.drop 0) = some m → m ≤ 2) :=
  (c3_scanner_selection "++".toList 0).2 ⟨TokKind.Inc, 0, ['+', '+']⟩ 2 rfl

/-- C4: `"++"` tokenizes to a single increment token and `"--"` to a
single decrement token (two-character operators beat the one-character
ones by longest match). -/
theorem c4_longest_operator :
    tokenize "++".toList = Except.ok [⟨TokKind.Inc, 0, "++".toList⟩] ∧
    tokenize "--".toList = Except.ok [⟨TokKind.Dec, 0, "--".toList⟩] :=
  ⟨rfl, rfl⟩

/-- C5: `"int"` tokenizes to a single keyword token, not an identifier
token, because the keyword entry precedes the identifier entry and ties
on length go to the earlier entry. -/
theorem c5_keyword_priority :
    tokenize "int".toList = Except.ok [⟨TokKind.Key, 0, "int".toList⟩] := rfl

/-- Counterexample to C6 as stated: the input `"//@"` contains the
character `'@'` and yet tokenizes successfully (the at-sign is consumed
inside a line-comment token), so containing `'@'` does not imply
failure. -/
theorem c6_counterexample :
    '@' ∈ "//@".toList ∧
    tokenize "//@".toList = Except.ok [⟨TokKind.Cmt, 0, "//@".toList⟩] :=
  ⟨by decide, rfl⟩

/-- C6 (amended): when `'@'` stands where a token must start — here at
the very beginning of the input — no pattern matches and `tokenize`
returns the lexer error, with no tokens alongside it. -/
theorem c6_unknown_leading_char (rest : List Char) :
    tokenize ('@' :: rest) = Except.error "L + Bozo" := by
  rw [tokenize, tokenizeLoop, if_neg (by simp), longest_match_at_sign]
  rfl

/-- C7: `"/* a\nb */x"` tokenizes to the full block comment (spanning
the newline) followed by the identifier `x`. -/
theorem c7_comment_spanning :
    tokenize "/* a\nb */x".toList =
      Except.ok [⟨TokKind.Cmt, 0, "/* a\nb */".toList⟩, ⟨TokKind.Var, 9, ['x']⟩] := rfl

/-- Counterexample to C8 as stated: the escape form with the escaped
character being a quote — the four characters of `'\''` — is rejected:
the simple char-literal alternative matches only the first three
characters and the trailing quote then fails to lex. -/
theorem c8_counterexample :
    tokenize ['\'', '\\', '\'', '\''] = Except.error "L + Bozo" := rfl

/-- C8 (amended): the empty form and the one-non-quote-character form
always lex as a single literal token, and the escape form lexes as a
single literal token for every escaped character except `'` (where the
shorter simple alternative wins and the remainder fails) and the newline
(which the dot of the escape alternative cannot match). -/
theorem c8_char_literals :
    tokenize ['\'', '\''] = Except.ok [⟨TokKind.Lit, 0, ['\'', '\'']⟩] ∧
    (∀ c, ¬ c = '\'' →
      tokenize ['\'', c, '\''] = Except.ok [⟨TokKind.Lit, 0, ['\'', c, '\'']⟩]) ∧
    (∀ c, ¬ c = '\'' → ¬ c = '\n' →
      tokenize ['\'', '\\', c, '\''] =
        Except.ok [⟨TokKind.Lit, 0, ['\'', '\\', c, '\'']⟩]) := by
  refine ⟨rfl, ?_, ?_⟩
  · intro c hc
    have h := longest_match_quote_head [c, '\''] 3 (matchLitTok_charlit c hc)
    exact tokenize_single ['\'', c, '\''] _ h (by simp)
  · intro c hc hn
    have h := longest_match_quote_head ['\\', c, '\''] 4 (matchLitTok_esc c hc hn)
    exact tokenize_single ['\'', '\\', c, '\''] _ h (by simp)

/-- Witness for C8 at the concrete character `q`, covering the
one-character and escape forms. -/
theorem c8_char_literals_witness :
    tokenize ['\'', 'q', '\''] = Except.ok [⟨TokKind.Lit, 0, ['\'', 'q', '\'']⟩] ∧
    tokenize ['\'', '\\', 'q', '\''] =
      Except.ok [⟨TokKind.Lit, 0, ['\'', '\\', 'q', '\'']⟩] :=
  ⟨c8_char_literals.2.1 'q' (by decide), c8_char_literals.2.2 'q' (by decide) (by decide)⟩

/-- C9: the driver terminates on every finite input — the loop run with
an iteration budget of `src.length + 1` completes (returns `some`) and
its result is exactly what `tokenize` returns, so the number of
iterations is bounded by the input length plus one. -/
theorem c9_termination (src : List Char) :
    tokenizeLoop (src.length + 1) src 0 [] = some (tokenize src) := by
  obtain ⟨r, hr⟩ := tokenizeLoop_total (src.length + 1) src 0 [] (by omega)
  rw [tokenize, hr, Option.getD_some]

/-- C10: every scanner match has length at least 1, so every token of a
successful run has non-empty text and the cursor strictly advances; the
empty input tokenizes to the empty token sequence. -/
theorem c10_nonempty_matches :
    (∀ (s : List Char) (i : Nat) (t : Tok) (n : Nat),
      longest_match s i = some (t, n) → 1 ≤ n ∧ t.str ≠ []) ∧
    (∀ (src : List Char) (ts : List Tok), tokenize src = Except.ok ts →
      ∀ t ∈ ts, t.str ≠ []) ∧
    tokenize ([] : List Char) = Except.ok [] := by
  refine ⟨?_, ?_, rfl⟩
  · intro s i t n h
    have hs := longest_match_sound s i t n h
    have h1 := hs.2.2.1
    refine ⟨h1, ?_⟩
    have hlen : t.str.length = n := by
      rw [hs.2.1]
      simp only [List.length_take, List.length_drop]
      omega
    intro hnil
    rw [hnil] at hlen
    simp only [List.length_nil] at hlen
    omega
  · intro src ts h t ht
    have hloop := tokenize_ok_loop src ts h
    obtain ⟨rest, hrest, hcontig, hjoin⟩ := tokenizeLoop_sound _ src 0 [] ts hloop
    simp only [List.nil_append] at hrest
    subst hrest
    have hp := Contig.str_pos 0 _ hcontig t ht
    intro hnil
    rw [hnil] at hp
    simp at hp

/-- Witness for C10 at the concrete input `"x"`. -/
theorem c10_nonempty_matches_witness :
    (1 ≤ 1 ∧ (⟨TokKind.Var, 0, ['x']⟩ : Tok).str ≠ []) ∧
    (∀ t ∈ ([⟨TokKind.Var, 0, ['x']⟩] : List Tok), t.str ≠ []) :=
  ⟨c10_nonempty_matches.1 "x".toList 0 ⟨TokKind.Var, 0, ['x']⟩ 1 rfl,
   c10_nonempty_matches.2.1 "x".toList _ rfl⟩

end Hex8
